import Mathlib

/-!
Verification of the component-tree override engine and callback dispatch
engine of `django_plotly_dash` (files `dash_wrapper.py` and
`django_dash.py`), via a shallow embedding in Lean.

JSON values are modelled by the inductive type `JVal`; numbers are modelled
as integers (no claim depends on float formatting).  Python `None` / JSON
`null` is `JVal.null`.  Python dictionaries coming from `json.loads` are
modelled as association lists with the insertion order preserved; such
dictionaries have pairwise-distinct keys, and lookups take the first match.
-/


inductive JVal where
  | null : JVal
  | bool : Bool → JVal
  | num : Int → JVal
  | str : String → JVal
  | arr : List JVal → JVal
  | obj : List (String × JVal) → JVal

/-! ### `json.dumps` (CPython, default options)

Only the features exercised by identifiers matter: strings are quoted with
the standard two-character escapes, other characters below 0x20 and all
characters above 0x7e are written as `\uXXXX` (`ensure_ascii=True`,
surrogate pairs for astral characters), integers print in decimal, and the
default separators are `", "` and `": "`. -/
def hexDigit (n : Nat) : Char :=
  if n < 10 then Char.ofNat (48 + n) else Char.ofNat (97 + n - 10)

def hex4 (n : Nat) : String :=
  String.mk [hexDigit (n / 4096 % 16), hexDigit (n / 256 % 16),
             hexDigit (n / 16 % 16), hexDigit (n % 16)]

def escapeChar (c : Char) : String :=
  if c = '"' then "\\\""
  else if c = '\\' then "\\\\"
  else if c = '\n' then "\\n"
  else if c = '\t' then "\\t"
  else if c = '\r' then "\\r"
  else if c.toNat = 8 then "\\b"
  else if c.toNat = 12 then "\\f"
  else if c.toNat < 32 || c.toNat ≥ 127 then
    if c.toNat < 65536 then "\\u" ++ hex4 c.toNat
    else
      "\\u" ++ hex4 (55296 + (c.toNat - 65536) / 1024)
        ++ "\\u" ++ hex4 (56320 + (c.toNat - 65536) % 1024)
  else String.singleton c

def dumpString (s : String) : String :=
  "\"" ++ String.join (s.data.map escapeChar) ++ "\""

mutual

def dumps : JVal → String
  | .null => "null"
  | .bool b => if b then "true" else "false"
  | .num n => toString n
  | .str s => dumpString s
  | .arr xs => "[" ++ dumpsList xs ++ "]"
  | .obj kvs => "\x7b" ++ dumpsObj kvs ++ "\x7d"

def dumpsList : List JVal → String
  | [] => ""
  | [x] => dumps x
  | x :: y :: rest => dumps x ++ ", " ++ dumpsList (y :: rest)

def dumpsObj : List (String × JVal) → String
  | [] => ""
  | [(k, v)] => dumpString k ++ ": " ++ dumps v
  | (k, v) :: p :: rest => dumpString k ++ ": " ++ dumps v ++ ", " ++ dumpsObj (p :: rest)

end

/-! ### Identifier canonicalization — `wid2str` (dash_wrapper.py lines 439-449)

A component identifier on the wire is either a plain string or a pattern:
a dictionary whose keys are strings.  `sorted(wid.items())` sorts the
key/value pairs; keys of a Python dict are pairwise distinct, so the sort
order is determined by the keys alone, which we model by sorting with the
key order `keyLE`. -/
inductive WId where
  | str : String → WId
  | pat : List (String × JVal) → WId

/-- Python's string comparison: lexicographic on code points (`≤`). -/
def chLeB : List Char → List Char → Bool
  | [], _ => true
  | _ :: _, [] => false
  | a :: as, b :: bs =>
    if a.toNat < b.toNat then true
    else if b.toNat < a.toNat then false
    else chLeB as bs

/-- Python's string comparison: lexicographic on code points (`<`). -/
def chLtB : List Char → List Char → Bool
  | [], [] => false
  | [], _ :: _ => true
  | _ :: _, [] => false
  | a :: as, b :: bs =>
    if a.toNat < b.toNat then true
    else if b.toNat < a.toNat then false
    else chLtB as bs

/-- Non-strict key comparison used by `sorted(wid.items())`: since the keys
of a Python dict are pairwise distinct, the pair order is the key order. -/
def keyLeB (p q : String × JVal) : Bool := chLeB p.1.data q.1.data

/-- Strict key comparison, used to state uniqueness of the sorted form. -/
def keyLtB (p q : String × JVal) : Bool := chLtB p.1.data q.1.data

def orderedInsertKey (p : String × JVal) :
    List (String × JVal) → List (String × JVal)
  | [] => [p]
  | q :: rest => if keyLeB p q then p :: q :: rest else q :: orderedInsertKey p rest

/-- `sorted(...)` of CPython on the items of a dict (insertion sort model). -/
def sortItems : List (String × JVal) → List (String × JVal)
  | [] => []
  | p :: rest => orderedInsertKey p (sortItems rest)

/-- `wid2str`: convert a Python identifier (`str` or `dict`) into its Dash
string representation.  The source joins, with commas, the strings
`json.dumps k ++ ":" ++ json.dumps v` over `sorted(wid.items())` and wraps
the result in braces; a plain string passes through unchanged. -/
def wid2str : WId → String
  | .str s => s
  | .pat kvs =>
      "\x7b" ++
        String.intercalate ","
          ((sortItems kvs).map
            (fun kv => dumps (.str kv.1) ++ ":" ++ dumps kv.2))
        ++ "\x7d"

/-- Non-strict key order as a relation. -/
def KeyLe (p q : String × JVal) : Prop := keyLeB p q = true

/-- Strict key order as a relation. -/
def KeyLt (p q : String × JVal) : Prop := keyLtB p q = true

instance : DecidableRel KeyLe := fun p q =>
  inferInstanceAs (Decidable (keyLeB p q = true))

instance : DecidableRel KeyLt := fun p q =>
  inferInstanceAs (Decidable (keyLtB p q = true))

/-! ### Tree replacement — `WrappedDash.walk_tree_and_replace`
(dash_wrapper.py lines 564-604)

The override map sends canonical identifier strings to maps from property
name to replacement value.  At a dict node the source first determines the
replacement map for the node: a dict-shaped (`pattern`) id is canonicalized
with `wid2str` and compared against every override key in turn (first match
wins, which on the distinct keys of a dict equals `List.lookup`); a string
id or any other hashable id is looked up directly with `overrides.get`, so
a non-string id never matches the string-keyed override map.  A list-valued
id is unhashable and makes `overrides.get` raise `TypeError` in Python, so
every theorem about the walk carries the `IdsOkB` hypothesis excluding that
shape.  Then for every property the source runs
`r = replacements.get(k, None); if r is None: r = recurse(v)` — note that a
stored override value of `None`/`null` is indistinguishable from an absent
key here. -/
abbrev Overrides := List (String × List (String × JVal))

/-- The replacement map chosen for a node from its `id` entry. -/
def sourceRepl (thisID : Option JVal) (overrides : Overrides) :
    List (String × JVal) :=
  match thisID with
  | some (.obj p) => (List.lookup (wid2str (.pat p)) overrides).getD []
  | some (.str s) => (List.lookup s overrides).getD []
  | _ => []

mutual

def walk_tree_and_replace (overrides : Overrides) : JVal → JVal
  | .obj kvs =>
      .obj (walkProps overrides (sourceRepl (List.lookup "id" kvs) overrides) kvs)
  | .arr xs => .arr (walkElems overrides xs)
  | .null => .null
  | .bool b => .bool b
  | .num n => .num n
  | .str s => .str s

def walkElems (overrides : Overrides) : List JVal → List JVal
  | [] => []
  | x :: xs => walk_tree_and_replace overrides x :: walkElems overrides xs

def walkProps (overrides : Overrides) (replacements : List (String × JVal)) :
    List (String × JVal) → List (String × JVal)
  | [] => []
  | (k, v) :: rest =>
      (k, match List.lookup k replacements with
          | some JVal.null => walk_tree_and_replace overrides v
          | some r => r
          | none => walk_tree_and_replace overrides v) ::
        walkProps overrides replacements rest

end

/-- `id` values that Python can hash: everything except a list. -/
def idValOkB : Option JVal → Bool
  | some (.arr _) => false
  | _ => true

mutual

def IdsOkB : JVal → Bool
  | .obj kvs => idValOkB (List.lookup "id" kvs) && IdsOkProps kvs
  | .arr xs => IdsOkElems xs
  | _ => true

def IdsOkElems : List JVal → Bool
  | [] => true
  | x :: xs => IdsOkB x && IdsOkElems xs

def IdsOkProps : List (String × JVal) → Bool
  | [] => true
  | kv :: rest => IdsOkB kv.2 && IdsOkProps rest

end

/-- Canonical identifier of a node, following the words of the spec:
pattern ids via the canonical string form, plain strings as themselves. -/
def canonicalIdOf (kvs : List (String × JVal)) : Option String :=
  match List.lookup "id" kvs with
  | some (.str s) => some s
  | some (.obj p) => some (wid2str (.pat p))
  | _ => none

mutual

/-- `replace` as the spec words it: for each own property whose name is
present in the override map for the node's id, substitute the override
value verbatim (no recursion into the substituted value); otherwise recurse. -/
def replaceSpec (overrides : Overrides) : JVal → JVal
  | .obj kvs =>
      .obj (replaceSpecProps overrides
        (match canonicalIdOf kvs with
         | some cid => (List.lookup cid overrides).getD []
         | none => []) kvs)
  | .arr xs => .arr (replaceSpecElems overrides xs)
  | .null => .null
  | .bool b => .bool b
  | .num n => .num n
  | .str s => .str s

def replaceSpecElems (overrides : Overrides) : List JVal → List JVal
  | [] => []
  | x :: xs => replaceSpec overrides x :: replaceSpecElems overrides xs

def replaceSpecProps (overrides : Overrides) (repl : List (String × JVal)) :
    List (String × JVal) → List (String × JVal)
  | [] => []
  | (k, v) :: rest =>
      (k, match List.lookup k repl with
          | some r => r
          | none => replaceSpec overrides v) ::
        replaceSpecProps overrides repl rest

end

mutual

/-- `replace` as the amended claim words it: identical to `replaceSpec`
except that an override value of `null` is treated as if the property name
were absent from the override map (the original value is recursed into). -/
def replaceAmended (overrides : Overrides) : JVal → JVal
  | .obj kvs =>
      .obj (replaceAmendedProps overrides
        (match canonicalIdOf kvs with
         | some cid => (List.lookup cid overrides).getD []
         | none => []) kvs)
  | .arr xs => .arr (replaceAmendedElems overrides xs)
  | .null => .null
  | .bool b => .bool b
  | .num n => .num n
  | .str s => .str s

def replaceAmendedElems (overrides : Overrides) : List JVal → List JVal
  | [] => []
  | x :: xs => replaceAmended overrides x :: replaceAmendedElems overrides xs

def replaceAmendedProps (overrides : Overrides) (repl : List (String × JVal)) :
    List (String × JVal) → List (String × JVal)
  | [] => []
  | (k, v) :: rest =>
      (k, match List.lookup k repl with
          | some JVal.null => replaceAmended overrides v
          | some r => r
          | none => replaceAmended overrides v) ::
        replaceAmendedProps overrides repl rest

end

/-! ### Signature analysis — `DjangoDash.get_expanded_arguments`
(dash_wrapper.py lines 293-338; identical logic in django_dash.py 255-300)

The source groups `inspect.signature(func).parameters.values()` with
`itertools.groupby` keyed by parameter kind, which forms maximal runs of
consecutive parameters of equal kind; the dict comprehension maps each kind
to the names of its last run.  `inspect` lists parameters in the canonical
Python order (positional-only, positional-or-keyword, *args, keyword-only,
**kwargs), under which every kind forms at most one run. -/
inductive ParamKind where
  | positionalOnly : ParamKind
  | positionalOrKeyword : ParamKind
  | varPositional : ParamKind
  | keywordOnly : ParamKind
  | varKeyword : ParamKind
deriving DecidableEq

structure PyParam where
  name : String
  kind : ParamKind

/-- Position of a kind in the canonical ordering of a Python signature. -/
def kindRank : ParamKind → Nat
  | .positionalOnly => 0
  | .positionalOrKeyword => 1
  | .varPositional => 2
  | .keywordOnly => 3
  | .varKeyword => 4

/-- `itertools.groupby` keyed by kind: maximal runs of consecutive
parameters of equal kind, with the names of each run in order. -/
def groupRuns : List PyParam → List (ParamKind × List String)
  | [] => []
  | p :: ps =>
    match groupRuns ps with
    | [] => [(p.kind, [p.name])]
    | (k, ns) :: rest =>
      if p.kind = k then (k, p.name :: ns) :: rest
      else (p.kind, [p.name]) :: (k, ns) :: rest

/-- The dict comprehension over the runs: a later run of the same kind
overwrites an earlier one. -/
def runsLookup (k : ParamKind) : List (ParamKind × List String) → Option (List String)
  | [] => none
  | r :: rest =>
    match runsLookup k rest with
    | some v => some v
    | none => if r.1 = k then some r.2 else none

/-- `DjangoDash.get_expanded_arguments`: `None` means "inject all". -/
def get_expanded_arguments (params : List PyParam) (inputs state : List String) :
    Option (List String) :=
  let n_dash_parameters := inputs.length + state.length
  let parameter_types := groupRuns params
  if (runsLookup .varKeyword parameter_types).isSome then none
  else if (runsLookup .varPositional parameter_types).isSome then
    some ((runsLookup .keywordOnly parameter_types).getD [])
  else
    some
      (((runsLookup .positionalOrKeyword parameter_types).getD []).drop
          n_dash_parameters
        ++ (runsLookup .keywordOnly parameter_types).getD [])

/-- The names of all parameters of one kind, in order. -/
def kindNames (k : ParamKind) (params : List PyParam) : List String :=
  (params.filter (fun p => p.kind == k)).map (fun p => p.name)

/-- The expansion policy in the words of the spec (section 4.3). -/
def expansion_policy_spec (params : List PyParam) (inputs state : List String) :
    Option (List String) :=
  if params.any (fun p => p.kind == .varKeyword) then none
  else if params.any (fun p => p.kind == .varPositional) then
    some (kindNames .keywordOnly params)
  else
    some ((kindNames .positionalOrKeyword params).drop
        (inputs.length + state.length)
      ++ kindNames .keywordOnly params)

/-- A valid Python signature: kinds appear in canonical order. -/
def KindsOrdered (params : List PyParam) : Prop :=
  params.Pairwise (fun p q => kindRank p.kind ≤ kindRank q.kind)

instance (params : List PyParam) : Decidable (KindsOrdered params) :=
  inferInstanceAs (Decidable (params.Pairwise
    (fun p q : PyParam => kindRank p.kind ≤ kindRank q.kind)))

/-! ### Callback dispatch — `WrappedDash.dispatch_with_args`
(dash_wrapper.py lines 728-821)

The wire body carries `inputs` and `state` lists whose entries are either a
single `id`/`property`/`value` record or (for ALL / ALLSMALLER pattern
groups) a list of such records.  `c.get("value")` of a record without a
value is Python `None`, which the record's `value` field models as `null`.

The handler is modelled as a function from the positional argument list and
the keyword-argument map to the parsed JSON value of its serialized
response; the `json.dumps`/`json.loads` round trip between the handler and
the dispatcher is the identity of this model.  The sentinel return
`"EDGECASEEXIT"` is a distinguished constructor, as it is not the
serialization of any response payload.

A `DispatchOutcome` records the returned value (or the Python exception),
how many times the handler was invoked, and the ordered list of
`update_current_state` calls made on the state backend. -/
structure WireEntry where
  id : WId
  property : String
  value : JVal

inductive ReqEntry where
  | single : WireEntry → ReqEntry
  | group : List WireEntry → ReqEntry

structure DispatchBody where
  inputs : List ReqEntry
  state : List ReqEntry
  output : String
  outputs : Option JVal
  changedPropIds : List String

/-- The state backend interface used by the dispatcher:
`have_current_state_entry`.  `update_current_state` calls are recorded in
the outcome's write list instead of mutating anything. -/
structure StateBackend where
  has : String → String → Bool

/-- The synthesized callback-context object.  Its contents are opaque to
every claim; it only occupies the `callback_context` key of the argument
map. -/
structure CallbackContextM where
  inputs_list : List ReqEntry
  states_list : List ReqEntry
  outputs_list : JVal
  changed_props : List String

/-- A value stored in the caller-supplied argument map (`argMap`). -/
inductive ArgVal where
  | jval : JVal → ArgVal
  | backend : StateBackend → ArgVal
  | ctx : CallbackContextM → ArgVal

/-- One registration held in `self.callback_map`: the declared input specs
(of which only the length is read by the dispatcher), the `.expanded`
attribute computed at registration time, and the handler. -/
structure CallbackInfo where
  inputs : List String
  expanded : Option (List String)
  callback : List JVal → List (String × ArgVal) → JVal

inductive DispatchRet where
  | sentinel : DispatchRet
  | payload : JVal → DispatchRet

inductive DErr where
  | keyError : DErr
  | valueError : DErr
  | attributeError : DErr
  | notImplementedError : DErr

structure DispatchOutcome where
  result : Except DErr DispatchRet
  handlerCalls : Nat
  writes : List (WId × String × JVal)

/-- Python truthiness of a JSON value. -/
def pyTruthy : JVal → Bool
  | .null => false
  | .bool b => b
  | .num n => !(n == 0)
  | .str s => !s.data.isEmpty
  | .arr xs => !xs.isEmpty
  | .obj kvs => !kvs.isEmpty

/-- Python `a or b` for an optional first operand. -/
def pyOr (a : Option JVal) (b : JVal) : JVal :=
  match a with
  | some v => if pyTruthy v then v else b
  | none => b

/-- Python `str.split(".")` on the underlying characters. -/
def splitDotChars : List Char → List (List Char)
  | [] => [[]]
  | c :: rest =>
    if c = '.' then [] :: splitDotChars rest
    else
      match splitDotChars rest with
      | [] => [[c]]
      | g :: gs => (c :: g) :: gs

def pySplitDot (s : String) : List String := (splitDotChars s.data).map String.mk

/-- Python `str.split("...")`: left-to-right, non-overlapping. -/
def splitDots3 : List Char → List (List Char)
  | [] => [[]]
  | '.' :: '.' :: '.' :: rest => [] :: splitDots3 rest
  | c :: rest =>
    match splitDots3 rest with
    | [] => [[c]]
    | g :: gs => (c :: g) :: gs

def leadsWith : List Char → List Char → Bool
  | [], _ => true
  | _ :: _, [] => false
  | p :: ps, c :: cs => p == c && leadsWith ps cs

def pyStartsWith (s pre : String) : Bool := leadsWith pre.data s.data

def pyEndsWith (s suf : String) : Bool := leadsWith suf.data.reverse s.data.reverse

/-- Python slicing `s[2:-2]`. -/
def slice2m2 (s : String) : String :=
  String.mk ((s.data.drop 2).take (s.data.length - 4))

/-- Modelled from the dash library (`dash._utils.split_callback_id`, an
external collaborator): split an output key at its last dot into an
`id`/`property` object, or a list of such objects for a `..`-wrapped
multi-output key.  Every claim treats this value as opaque. -/
def splitIdProp (item : String) : JVal :=
  match (pySplitDot item).reverse with
  | prop :: restRev =>
      .obj [("id", .str (String.intercalate "." restRev.reverse)),
            ("property", .str prop)]
  | [] => .obj [("id", .str ""), ("property", .str item)]

def split_callback_id (callback_id : String) : JVal :=
  if pyStartsWith callback_id ".." then
    .arr ((splitDots3 (slice2m2 callback_id).data).map
      (fun g => splitIdProp (String.mk g)))
  else splitIdProp callback_id

/-- Python dict assignment on a unique-key association list: overwrite in
place when the key is present, append otherwise. -/
def setKey (m : List (String × ArgVal)) (k : String) (v : ArgVal) :
    List (String × ArgVal) :=
  if (List.lookup k m).isSome then
    m.map (fun p => if p.1 = k then (k, v) else p)
  else m ++ [(k, v)]

/-- `da = argMap.get("dash_app", None)`; only an attached state backend is
truthy and usable, so the model yields the backend or nothing. -/
def getDashApp (argMap : List (String × ArgVal)) : Option StateBackend :=
  match List.lookup "dash_app" argMap with
  | some (.backend b) => some b
  | _ => none

/-- The positional value contributed by one request entry. -/
def entryValue : ReqEntry → JVal
  | .single e => e.value
  | .group es => .arr (es.map (fun e => e.value))

/-- The `update_current_state` calls contributed by one request entry. -/
def entryWrites : ReqEntry → List (WId × String × JVal)
  | .single e => [(e.id, e.property, e.value)]
  | .group es => es.map (fun e => (e.id, e.property, e.value))

/-- The argument-reconstruction loop over `inputs_list + states`: one
positional argument per entry, and (when a backend is attached) one
recorded write per wire record. -/
def reconstructArgs (da : Option StateBackend) (entries : List ReqEntry) :
    List JVal × List (WId × String × JVal) :=
  (entries.map entryValue,
   match da with
   | some _ => (entries.map entryWrites).flatten
   | none => [])

/-- `outputs_list = body.get("outputs") or split_callback_id(output)`. -/
def outputsListOf (body : DispatchBody) : JVal :=
  pyOr body.outputs (split_callback_id body.output)

def ctxOf (body : DispatchBody) : CallbackContextM :=
  { inputs_list := body.inputs
    states_list := body.state
    outputs_list := outputsListOf body
    changed_props := body.changedPropIds }

/-- `if len(argMap) > 0: argMap["callback_context"] = callback_context`. -/
def argMapWithCtx (body : DispatchBody) (argMap : List (String × ArgVal)) :
    List (String × ArgVal) :=
  if argMap.length > 0 then setKey argMap "callback_context" (.ctx (ctxOf body))
  else argMap

/-- The argument map as the handler invocation sees it:
`argMap["outputs_list"] = outputs_list` after the context insertion. -/
def argMapFull (body : DispatchBody) (argMap : List (String × ArgVal)) :
    List (String × ArgVal) :=
  setKey (argMapWithCtx body argMap) "outputs_list" (.jval (outputsListOf body))

/-- `parameters_to_inject = (*callback.expanded, "outputs_list")` as a set;
the keyword arguments passed are the argument-map entries whose key lies in
that set. -/
def selectKwargs (expanded : List String) (argMap : List (String × ArgVal)) :
    List (String × ArgVal) :=
  argMap.filter (fun p => expanded.contains p.1 || p.1 == "outputs_list")

/-- `outputs`: a `..id1.p1...id2.p2..` envelope is split into its members,
anything else is a single output key.  Note the resulting items are always
strings — the `isinstance(output_item, str)` test in the persistence loop
below is therefore always true, and its `else` branch (the
`NotImplementedError` for pattern-shaped outputs) is unreachable. -/
def splitOutputs (output : String) : List String :=
  if !(pyStartsWith output ".." && pyEndsWith output "..") then [output]
  else (splitDots3 (slice2m2 output).data).map String.mk

/-- `d.get(k, default)` on a value that must be a dict
(`AttributeError` otherwise). -/
def pyDictGet (v : JVal) (k : String) (dflt : JVal) : Except DErr JVal :=
  match v with
  | .obj kvs => .ok ((List.lookup k kvs).getD dflt)
  | _ => .error .attributeError

/-- `json.loads(res).get("response", {})`. -/
def getResponse (res : JVal) : Except DErr JVal :=
  match res with
  | .obj kvs => .ok ((List.lookup "response" kvs).getD (.obj []))
  | _ => .error .attributeError

/-- The state-persistence loop over the output items (all strings, see
`splitOutputs`): split each at its dots — exactly two parts or
`ValueError` — and, when the backend has an entry for that id/property,
record the write of `root_value.get(id, dict()).get(property)`. -/
def persistOutputs (b : StateBackend) (root_value : JVal) :
    List String → Except DErr (List (WId × String × JVal))
  | [] => .ok []
  | output_item :: rest =>
    match pySplitDot output_item with
    | [output_id, output_property] =>
      if b.has output_id output_property then
        match pyDictGet root_value output_id (.obj []) with
        | .error e => .error e
        | .ok inner =>
          match pyDictGet inner output_property .null with
          | .error e => .error e
          | .ok value =>
            match persistOutputs b root_value rest with
            | .error e => .error e
            | .ok ws => .ok ((.str output_id, output_property, value) :: ws)
      else persistOutputs b root_value rest
    | _ => .error .valueError

/-- The tail of `dispatch_with_args` after the handler has returned `res`:
without a backend the payload is returned as is; with a backend the
response member is decoded and the persistence loop runs over the output
items before the payload is returned. -/
def dispatch_finish (da : Option StateBackend) (outputs : List String)
    (writes0 : List (WId × String × JVal)) (res : JVal) : DispatchOutcome :=
  match da with
  | none => ⟨.ok (.payload res), 1, writes0⟩
  | some b =>
    match getResponse res with
    | .error e => ⟨.error e, 1, writes0⟩
    | .ok root_value =>
      match persistOutputs b root_value outputs with
      | .error e => ⟨.error e, 1, writes0⟩
      | .ok ws => ⟨.ok (.payload res), 1, writes0 ++ ws⟩

/-- `WrappedDash.dispatch_with_args`. -/
def dispatch_with_args (callback_map : List (String × CallbackInfo))
    (body : DispatchBody) (argMap : List (String × ArgVal)) : DispatchOutcome :=
  let argMap1 := argMapWithCtx body argMap
  let outputs := splitOutputs body.output
  let da := getDashApp argMap1
  match List.lookup body.output callback_map with
  | none => ⟨.error .keyError, 0, []⟩
  | some callback_info =>
    let argsW := reconstructArgs da (body.inputs ++ body.state)
    let args := argsW.1
    let writes0 := argsW.2
    let argMap2 := argMapFull body argMap
    if args.length < callback_info.inputs.length then
      ⟨.ok .sentinel, 0, writes0⟩
    else
      let kwargs :=
        match callback_info.expanded with
        | some expanded => selectKwargs expanded argMap2
        | none => argMap2
      dispatch_finish da outputs writes0 (callback_info.callback args kwargs)

/-! ### Namespacing — `WrappedDash._fix_id`, `_fix_callback_item`,
`_fix_component_id` and `WrappedDash.callback`
(dash_wrapper.py lines 666-709) -/
/-- A dash dependency item (`Output`/`Input`/`State`): the component id and
property it references. -/
structure DepItem where
  component_id : String
  component_property : String

/-- `_fix_id`: identity when `_adjust_id` is off, otherwise prefix the
instance id. -/
def fix_id (adjust : Bool) (uid : String) (name : String) : String :=
  if !adjust then name else uid ++ "_-_" ++ name

/-- `_fix_callback_item`: rewrite the component id of a dependency item. -/
def fix_callback_item (adjust : Bool) (uid : String) (item : DepItem) : DepItem :=
  { item with component_id := fix_id adjust uid item.component_id }

/-- A component tree as `_fix_component_id` sees it: an optional `id`
attribute and a list of children (the `with suppress(Exception)` around the
child iteration makes a missing or non-iterable `children` equivalent to an
empty list). -/
inductive CompNode where
  | mk : Option String → List CompNode → CompNode

mutual

/-- `_fix_component_id`: rewrite this node's id (when present) with
`_fix_id` and recurse into the children. -/
def fix_component_id (adjust : Bool) (uid : String) : CompNode → CompNode
  | .mk i cs => .mk (i.map (fix_id adjust uid)) (fixChildren adjust uid cs)

def fixChildren (adjust : Bool) (uid : String) : List CompNode → List CompNode
  | [] => []
  | c :: cs => fix_component_id adjust uid c :: fixChildren adjust uid cs

end

mutual

/-- All ids of a component tree, in preorder. -/
def compIds : CompNode → List String
  | .mk i cs => (match i with | some s => [s] | none => []) ++ compIdsList cs

def compIdsList : List CompNode → List String
  | [] => []
  | c :: cs => compIds c ++ compIdsList cs

end

inductive OutSpec where
  | single : DepItem → OutSpec
  | multi : List DepItem → OutSpec

def fixOutputs (adjust : Bool) (uid : String) : OutSpec → OutSpec
  | .single d => .single (fix_callback_item adjust uid d)
  | .multi ds => .multi (ds.map (fix_callback_item adjust uid))

/-- The dependency lists that `WrappedDash.callback` hands to the
underlying Dash `callback`: outputs, inputs and state, each rewritten with
`_fix_callback_item`. -/
def wrapped_callback_args (adjust : Bool) (uid : String) (output : OutSpec)
    (inputs state : List DepItem) : OutSpec × List DepItem × List DepItem :=
  (fixOutputs adjust uid output,
   inputs.map (fix_callback_item adjust uid),
   state.map (fix_callback_item adjust uid))

def c1ci : CallbackInfo :=
  ⟨["in1.value", "in2.value"], some [],
   fun _ _ => .obj [("response", .obj [])]⟩

def c1body : DispatchBody :=
  ⟨[.single ⟨.str "in1", "value", .num 5⟩], [], "out.children", none, []⟩

def c1xci : CallbackInfo :=
  ⟨["in1.value", "in2.value"], none, fun args _ => .obj [("echo", .arr args)]⟩

def c1xbody : DispatchBody :=
  ⟨[.single ⟨.str "in1", "value", .num 5⟩],
   [.single ⟨.str "s1", "value", .num 7⟩], "out.children", none, []⟩

def c10b : StateBackend := ⟨fun _ _ => true⟩

def c10ci : CallbackInfo :=
  ⟨["a.value", "b.value", "c.value"], none, fun _ _ => .obj []⟩

def c10body : DispatchBody :=
  ⟨[.single ⟨.str "in1", "value", .num 5⟩],
   [.single ⟨.str "s1", "value", .num 7⟩], "out.children", none, []⟩

/-! ### Claim C6 — which extra named parameters reach the handler -/
def c6ci : CallbackInfo :=
  ⟨["in1.value"], some [], fun _ kwargs => .arr (kwargs.map (fun p => .str p.1))⟩

def c6body : DispatchBody :=
  ⟨[.single ⟨.str "in1", "value", .num 5⟩], [], "out.children", none, []⟩

def c6wci : CallbackInfo := ⟨["in1.value"], some ["d"], fun _ _ => .obj []⟩

/-- A backend for the C6 witness, showing the kwargs selection is the same
for a stateful dispatch. -/
def c6wb : StateBackend := ⟨fun _ _ => false⟩

def c6wam : List (String × ArgVal) :=
  [("dash_app", .backend c6wb), ("d", .jval (.num 42)),
   ("junk", .jval (.num 0))]

/-! ### Claim C5 — pattern-shaped output targets and state persistence -/
def c5b : StateBackend := ⟨fun _ _ => false⟩

def c5out : String := "\x7b\"index\":0,\"type\":\"btn\"\x7d.children"

def c5resp : JVal :=
  .obj [("response",
    .obj [("\x7b\"index\":0,\"type\":\"btn\"\x7d",
      .obj [("children", .num 42)])])]

def c5ci : CallbackInfo := ⟨["in1.value"], none, fun _ _ => c5resp⟩

def c5body : DispatchBody :=
  ⟨[.single ⟨.str "in1", "value", .num 5⟩], [], c5out, none, []⟩


/-- Induction over `JVal` with element-wise hypotheses for the nested lists. -/
theorem jvalInduction (P : JVal → Prop)
    (hnull : P .null) (hbool : ∀ b, P (.bool b)) (hnum : ∀ n, P (.num n))
    (hstr : ∀ s, P (.str s))
    (harr : ∀ xs, (∀ x ∈ xs, P x) → P (.arr xs))
    (hobj : ∀ kvs, (∀ kv ∈ kvs, P kv.2) → P (.obj kvs)) :
    ∀ v, P v := fun v =>
  match v with
  | .null => hnull
  | .bool b => hbool b
  | .num n => hnum n
  | .str s => hstr s
  | .arr xs => harr xs (fun x hx =>
      have : sizeOf x < 1 + sizeOf xs := by
        have h := List.sizeOf_lt_of_mem hx
        omega
      jvalInduction P hnull hbool hnum hstr harr hobj x)
  | .obj kvs => hobj kvs (fun kv hkv =>
      have : sizeOf kv.2 < 1 + sizeOf kvs := by
        have h := List.sizeOf_lt_of_mem hkv
        have h2 : sizeOf kv.2 < sizeOf kv := by
          cases kv with
          | mk a b => simp only [Prod.mk.sizeOf_spec]; omega
        omega
      jvalInduction P hnull hbool hnum hstr harr hobj kv.2)
termination_by v => sizeOf v

/-! ### Order facts about the key comparison, and facts about `sortItems` -/
theorem chLeB_nil (b : List Char) : chLeB [] b = true := by cases b <;> rfl

theorem string_eq_of_data (s t : String) (h : s.data = t.data) : s = t := by
  cases s; cases t; exact congrArg String.mk h

theorem chLeB_total : ∀ a b, chLeB a b = false → chLeB b a = true
  | [], b, h => by rw [chLeB_nil] at h; cases h
  | _ :: _, [], _ => chLeB_nil _
  | a :: as, b :: bs, h => by
    simp only [chLeB] at h ⊢
    by_cases hab : a.toNat < b.toNat
    · rw [if_pos hab] at h; cases h
    · rw [if_neg hab] at h
      by_cases hba : b.toNat < a.toNat
      · rw [if_pos hba]
      · rw [if_neg hba] at h
        rw [if_neg hba, if_neg hab]
        exact chLeB_total as bs h

theorem chLeB_trans : ∀ a b c, chLeB a b = true → chLeB b c = true →
    chLeB a c = true
  | [], _, c, _, _ => chLeB_nil c
  | _ :: _, [], _, h1, _ => by simp [chLeB] at h1
  | _ :: _, _ :: _, [], _, h2 => by simp [chLeB] at h2
  | a :: as, b :: bs, c :: cs, h1, h2 => by
    simp only [chLeB] at h1 h2 ⊢
    by_cases hab : a.toNat < b.toNat
    · by_cases hbc : b.toNat < c.toNat
      · rw [if_pos (by omega : a.toNat < c.toNat)]
      · rw [if_neg hbc] at h2
        by_cases hcb : c.toNat < b.toNat
        · rw [if_pos hcb] at h2; cases h2
        · rw [if_pos (by omega : a.toNat < c.toNat)]
    · rw [if_neg hab] at h1
      by_cases hba : b.toNat < a.toNat
      · rw [if_pos hba] at h1; cases h1
      · rw [if_neg hba] at h1
        by_cases hbc : b.toNat < c.toNat
        · rw [if_pos (by omega : a.toNat < c.toNat)]
        · rw [if_neg hbc] at h2
          by_cases hcb : c.toNat < b.toNat
          · rw [if_pos hcb] at h2; cases h2
          · rw [if_neg hcb] at h2
            rw [if_neg (by omega : ¬ a.toNat < c.toNat),
              if_neg (by omega : ¬ c.toNat < a.toNat)]
            exact chLeB_trans as bs cs h1 h2

theorem chLeB_antisymm : ∀ a b, chLeB a b = true → chLeB b a = true → a = b
  | [], [], _, _ => rfl
  | [], _ :: _, _, h2 => by simp [chLeB] at h2
  | _ :: _, [], h1, _ => by simp [chLeB] at h1
  | a :: as, b :: bs, h1, h2 => by
    simp only [chLeB] at h1 h2
    by_cases hab : a.toNat < b.toNat
    · rw [if_neg (by omega : ¬ b.toNat < a.toNat), if_pos hab] at h2; cases h2
    · by_cases hba : b.toNat < a.toNat
      · rw [if_neg hab, if_pos hba] at h1; cases h1
      · rw [if_neg hab, if_neg hba] at h1
        rw [if_neg hba, if_neg hab] at h2
        have he : a.toNat = b.toNat := by omega
        have he2 : a = b := Char.ext (UInt32.toNat.inj he)
        rw [he2, chLeB_antisymm as bs h1 h2]

theorem chLeB_of_ltB : ∀ a b, chLtB a b = true → chLeB a b = true
  | [], b, _ => chLeB_nil b
  | _ :: _, [], h => by simp [chLtB] at h
  | a :: as, b :: bs, h => by
    simp only [chLtB] at h
    simp only [chLeB]
    by_cases hab : a.toNat < b.toNat
    · rw [if_pos hab]
    · rw [if_neg hab] at h ⊢
      by_cases hba : b.toNat < a.toNat
      · rw [if_pos hba] at h; cases h
      · rw [if_neg hba] at h ⊢
        exact chLeB_of_ltB as bs h

theorem chLtB_of_le_ne : ∀ a b, chLeB a b = true → a ≠ b → chLtB a b = true
  | [], [], _, hne => absurd rfl hne
  | [], _ :: _, _, _ => rfl
  | _ :: _, [], h1, _ => by simp [chLeB] at h1
  | a :: as, b :: bs, h1, hne => by
    simp only [chLeB] at h1
    simp only [chLtB]
    by_cases hab : a.toNat < b.toNat
    · rw [if_pos hab]
    · rw [if_neg hab] at h1 ⊢
      by_cases hba : b.toNat < a.toNat
      · rw [if_pos hba] at h1; cases h1
      · rw [if_neg hba] at h1 ⊢
        have he : a.toNat = b.toNat := by omega
        have he2 : a = b := Char.ext (UInt32.toNat.inj he)
        subst he2
        exact chLtB_of_le_ne as bs h1 (fun hh => hne (by rw [hh]))

theorem chLtB_ne : ∀ a b, chLtB a b = true → a ≠ b
  | [], [], h, _ => by simp [chLtB] at h
  | [], _ :: _, _, he => by cases he
  | _ :: _, [], h, _ => by simp [chLtB] at h
  | a :: as, b :: bs, h, he => by
    simp only [chLtB] at h
    injection he with he1 he2
    subst he1
    subst he2
    rw [if_neg (by omega : ¬ a.toNat < a.toNat)] at h
    rw [if_neg (by omega : ¬ a.toNat < a.toNat)] at h
    exact chLtB_ne as as h rfl

theorem chLtB_asymm : ∀ a b, chLtB a b = true → chLtB b a = true → False := by
  intro a b h1 h2
  exact chLtB_ne a b h1
    (chLeB_antisymm a b (chLeB_of_ltB a b h1) (chLeB_of_ltB b a h2))

theorem perm_orderedInsertKey (p : String × JVal) :
    ∀ l, (orderedInsertKey p l).Perm (p :: l)
  | [] => List.Perm.refl _
  | q :: rest => by
    simp only [orderedInsertKey]
    by_cases h : keyLeB p q = true
    · simp [h]
    · simp only [h, if_false]
      exact ((perm_orderedInsertKey p rest).cons q).trans (List.Perm.swap p q rest)

theorem perm_sortItems : ∀ l, (sortItems l).Perm l
  | [] => List.Perm.refl _
  | p :: rest =>
    (perm_orderedInsertKey p (sortItems rest)).trans ((perm_sortItems rest).cons p)

theorem pairwise_and {α : Type} {R S : α → α → Prop} :
    ∀ {l : List α}, l.Pairwise R → l.Pairwise S →
      l.Pairwise (fun a b => R a b ∧ S a b)
  | [], _, _ => List.Pairwise.nil
  | _ :: _, .cons hr hR, .cons hs hS =>
    List.Pairwise.cons (fun b hb => ⟨hr b hb, hs b hb⟩) (pairwise_and hR hS)

theorem sorted_orderedInsertKey (p : String × JVal) :
    ∀ l, l.Pairwise KeyLe → (orderedInsertKey p l).Pairwise KeyLe := by
  intro l
  induction l with
  | nil => exact fun _ => List.pairwise_singleton _ _
  | cons q rest ih =>
    intro hl
    rw [List.pairwise_cons] at hl
    obtain ⟨hq, hrest⟩ := hl
    simp only [orderedInsertKey]
    by_cases h : keyLeB p q = true
    · rw [if_pos h]
      refine List.Pairwise.cons ?_ (List.Pairwise.cons hq hrest)
      intro b hb
      rcases List.mem_cons.mp hb with hb1 | hb2
      · subst hb1; exact h
      · exact chLeB_trans _ _ _ h (hq b hb2)
    · rw [if_neg h]
      refine List.Pairwise.cons ?_ (ih hrest)
      intro b hb
      rcases List.mem_cons.mp ((perm_orderedInsertKey p rest).mem_iff.mp hb) with
        hb1 | hb2
      · subst hb1
        exact chLeB_total _ _ (by simpa using h)
      · exact hq b hb2

theorem sorted_sortItems : ∀ l, (sortItems l).Pairwise KeyLe
  | [] => List.Pairwise.nil
  | p :: rest => sorted_orderedInsertKey p (sortItems rest) (sorted_sortItems rest)

theorem pairwise_keyLt_of_le_nodup (l : List (String × JVal))
    (hs : l.Pairwise KeyLe) (hn : (l.map Prod.fst).Nodup) :
    l.Pairwise KeyLt := by
  rw [List.Nodup, List.pairwise_map] at hn
  refine (pairwise_and hs hn).imp ?_
  intro a b hab
  exact chLtB_of_le_ne _ _ hab.1
    (fun hd => hab.2 (string_eq_of_data _ _ hd))

/-- Two permutations of the same distinct-key item list sort identically. -/
theorem sortItems_eq_of_perm (l1 l2 : List (String × JVal))
    (hp : l1.Perm l2) (hn : (l1.map Prod.fst).Nodup) :
    sortItems l1 = sortItems l2 := by
  have hperm : (sortItems l1).Perm (sortItems l2) :=
    ((perm_sortItems l1).trans hp).trans (perm_sortItems l2).symm
  have hn1 : ((sortItems l1).map Prod.fst).Nodup :=
    (((perm_sortItems l1).map Prod.fst).nodup_iff).mpr hn
  have hn2 : ((sortItems l2).map Prod.fst).Nodup :=
    (((perm_sortItems l2).map Prod.fst).nodup_iff).mpr
      (((hp.map Prod.fst).nodup_iff).mp hn)
  haveI : IsAntisymm (String × JVal) KeyLt :=
    ⟨fun _ _ h1 h2 => (chLtB_asymm _ _ h1 h2).elim⟩
  exact List.eq_of_perm_of_sorted hperm
    (pairwise_keyLt_of_le_nodup _ (sorted_sortItems l1) hn1)
    (pairwise_keyLt_of_le_nodup _ (sorted_sortItems l2) hn2)

/-- Sorting a list whose keys are already strictly ascending is the identity. -/
theorem sortItems_of_sorted : ∀ l, l.Pairwise KeyLt → sortItems l = l := by
  intro l
  induction l with
  | nil => exact fun _ => rfl
  | cons p rest ih =>
    intro hl
    rw [List.pairwise_cons] at hl
    obtain ⟨hp, hrest⟩ := hl
    simp only [sortItems, ih hrest]
    cases rest with
    | nil => rfl
    | cons q rest2 =>
      have hle : keyLeB p q = true :=
        chLeB_of_ltB _ _ (hp q (List.mem_cons_self q rest2))
      simp only [orderedInsertKey, hle, if_pos]

/-- The two ways of picking the node replacement map agree: the isinstance
dispatch with a linear scan for pattern ids (source) equals the uniform
canonicalize-then-lookup (spec). -/
theorem sourceRepl_eq_canonical (thisID : Option JVal) (overrides : Overrides) :
    sourceRepl thisID overrides =
      (match (match thisID with
              | some (.str s) => some s
              | some (.obj p) => some (wid2str (.pat p))
              | _ => none) with
       | some cid => (List.lookup cid overrides).getD []
       | none => []) := by
  match thisID with
  | none => rfl
  | some .null => rfl
  | some (.bool b) => rfl
  | some (.num n) => rfl
  | some (.str s) => rfl
  | some (.arr xs) => rfl
  | some (.obj kvs) => rfl

theorem walk_empty_elems (xs : List JVal)
    (h : ∀ x ∈ xs, IdsOkB x = true → walk_tree_and_replace [] x = x)
    (hok : IdsOkElems xs = true) : walkElems [] xs = xs := by
  induction xs with
  | nil => rfl
  | cons x rest ih =>
    simp only [IdsOkElems, Bool.and_eq_true] at hok
    simp only [walkElems]
    rw [h x (List.mem_cons_self x rest) hok.1,
      ih (fun y hy => h y (List.mem_cons_of_mem x hy)) hok.2]

theorem sourceRepl_empty (thisID : Option JVal) : sourceRepl thisID [] = [] := by
  rw [sourceRepl_eq_canonical]
  match thisID with
  | none => rfl
  | some .null => rfl
  | some (.bool b) => rfl
  | some (.num n) => rfl
  | some (.str s) => rfl
  | some (.arr xs) => rfl
  | some (.obj kvs) => rfl

theorem walk_empty_props (kvs : List (String × JVal))
    (h : ∀ kv ∈ kvs, IdsOkB kv.2 = true → walk_tree_and_replace [] kv.2 = kv.2)
    (hok : IdsOkProps kvs = true) : walkProps [] [] kvs = kvs := by
  induction kvs with
  | nil => rfl
  | cons kv rest ih =>
    obtain ⟨k, v⟩ := kv
    simp only [IdsOkProps, Bool.and_eq_true] at hok
    simp only [walkProps, List.lookup_nil]
    rw [h (k, v) (List.mem_cons_self _ rest) hok.1,
      ih (fun y hy => h y (List.mem_cons_of_mem _ hy)) hok.2]

/-- `replace(tree, empty overrides)` returns the tree itself. -/
theorem walk_empty_overrides :
    ∀ v, IdsOkB v = true → walk_tree_and_replace [] v = v := by
  intro v
  induction v using jvalInduction with
  | hnull => intro _; rfl
  | hbool b => intro _; rfl
  | hnum n => intro _; rfl
  | hstr s => intro _; rfl
  | harr xs ih =>
    intro hok
    simp only [IdsOkB] at hok
    simp only [walk_tree_and_replace]
    rw [walk_empty_elems xs ih hok]
  | hobj kvs ih =>
    intro hok
    simp only [IdsOkB, Bool.and_eq_true] at hok
    simp only [walk_tree_and_replace, sourceRepl_empty]
    rw [walk_empty_props kvs ih hok.2]

theorem walk_amended_elems (ov : Overrides) (xs : List JVal)
    (h : ∀ x ∈ xs, IdsOkB x = true →
      walk_tree_and_replace ov x = replaceAmended ov x)
    (hok : IdsOkElems xs = true) : walkElems ov xs = replaceAmendedElems ov xs := by
  induction xs with
  | nil => rfl
  | cons x rest ih =>
    simp only [IdsOkElems, Bool.and_eq_true] at hok
    simp only [walkElems, replaceAmendedElems]
    rw [h x (List.mem_cons_self x rest) hok.1,
      ih (fun y hy => h y (List.mem_cons_of_mem x hy)) hok.2]

theorem walk_amended_props (ov : Overrides) (repl : List (String × JVal))
    (kvs : List (String × JVal))
    (h : ∀ kv ∈ kvs, IdsOkB kv.2 = true →
      walk_tree_and_replace ov kv.2 = replaceAmended ov kv.2)
    (hok : IdsOkProps kvs = true) :
    walkProps ov repl kvs = replaceAmendedProps ov repl kvs := by
  induction kvs with
  | nil => rfl
  | cons kv rest ih =>
    obtain ⟨k, v⟩ := kv
    simp only [IdsOkProps, Bool.and_eq_true] at hok
    simp only [walkProps, replaceAmendedProps]
    rw [ih (fun y hy => h y (List.mem_cons_of_mem _ hy)) hok.2]
    have hv := h (k, v) (List.mem_cons_self _ rest) hok.1
    match List.lookup k repl with
    | none => rw [hv]
    | some JVal.null => rw [hv]
    | some (.bool b) => rfl
    | some (.num n) => rfl
    | some (.str s) => rfl
    | some (.arr xs) => rfl
    | some (.obj o) => rfl

/-- On trees without list-valued ids, the source walk coincides with the
amended spec description. -/
theorem walk_eq_replaceAmended (ov : Overrides) :
    ∀ v, IdsOkB v = true → walk_tree_and_replace ov v = replaceAmended ov v := by
  intro v
  induction v using jvalInduction with
  | hnull => intro _; rfl
  | hbool b => intro _; rfl
  | hnum n => intro _; rfl
  | hstr s => intro _; rfl
  | harr xs ih =>
    intro hok
    simp only [IdsOkB] at hok
    simp only [walk_tree_and_replace, replaceAmended]
    rw [walk_amended_elems ov xs ih hok]
  | hobj kvs ih =>
    intro hok
    simp only [IdsOkB, Bool.and_eq_true] at hok
    simp only [walk_tree_and_replace, replaceAmended, sourceRepl_eq_canonical,
      canonicalIdOf]
    rw [walk_amended_props ov _ kvs ih hok.2]

theorem kindRank_inj : ∀ a b : ParamKind, kindRank a = kindRank b → a = b := by
  intro a b h
  cases a <;> cases b <;> first | rfl | (simp [kindRank] at h)

theorem groupRuns_ne_nil (p : PyParam) (ps : List PyParam) :
    groupRuns (p :: ps) ≠ [] := by
  simp only [groupRuns]
  match groupRuns ps with
  | [] => simp
  | (k, ns) :: rest =>
    by_cases h : p.kind = k
    · simp [h]
    · simp [h]

theorem groupRuns_head (p : PyParam) (ps : List PyParam) :
    ∃ ns rest, groupRuns (p :: ps) = (p.kind, ns) :: rest := by
  simp only [groupRuns]
  match groupRuns ps with
  | [] => exact ⟨[p.name], [], rfl⟩
  | (k, ns) :: rest =>
    by_cases h : p.kind = k
    · subst h
      exact ⟨p.name :: ns, rest, by simp⟩
    · exact ⟨[p.name], (k, ns) :: rest, by simp [h]⟩

theorem runsLookup_isSome_cons (k : ParamKind) (r : ParamKind × List String)
    (rest : List (ParamKind × List String)) :
    (runsLookup k (r :: rest)).isSome =
      ((runsLookup k rest).isSome || (r.1 == k)) := by
  simp only [runsLookup]
  match runsLookup k rest with
  | some v => simp
  | none =>
    by_cases h : r.1 = k
    · simp [h]
    · simp [h]

theorem runsLookup_isSome (k : ParamKind) :
    ∀ ps, (runsLookup k (groupRuns ps)).isSome =
      ps.any (fun p => p.kind == k) := by
  intro ps
  induction ps with
  | nil => rfl
  | cons p ps ih =>
    simp only [groupRuns, List.any_cons]
    match hg : groupRuns ps with
    | [] =>
      rw [hg] at ih
      simp only [runsLookup] at ih ⊢
      by_cases h : p.kind = k
      · simp [h]
      · simp [h, ← ih]
    | (k0, ns) :: rest =>
      rw [hg] at ih
      dsimp only
      by_cases h : p.kind = k0
      · rw [if_pos h]
        rw [runsLookup_isSome_cons] at ih ⊢
        subst h
        rw [← ih]
        cases hrk : (runsLookup k rest).isSome <;>
          cases hk0 : (p.kind == k) <;> simp_all
      · rw [if_neg h]
        rw [runsLookup_isSome_cons, ih]
        cases hany : ps.any (fun p => p.kind == k) <;>
          cases hk : (p.kind == k) <;> simp_all

theorem runsLookup_none (k : ParamKind) :
    ∀ runs : List (ParamKind × List String),
      (∀ r ∈ runs, r.1 ≠ k) → runsLookup k runs = none := by
  intro runs
  induction runs with
  | nil => intro _; rfl
  | cons r rest ih =>
    intro h
    simp only [runsLookup, ih (fun y hy => h y (List.mem_cons_of_mem r hy))]
    rw [if_neg (h r (List.mem_cons_self r rest))]

/-- For an ordered signature, the kinds of the runs strictly ascend. -/
theorem groupRuns_kinds_lt :
    ∀ ps, KindsOrdered ps →
      ((groupRuns ps).map Prod.fst).Pairwise
        (fun a b => kindRank a < kindRank b) := by
  intro ps
  induction ps with
  | nil => intro _; exact List.Pairwise.nil
  | cons p ps ih =>
    intro hord
    rw [KindsOrdered, List.pairwise_cons] at hord
    obtain ⟨hall, hps⟩ := hord
    have ihp := ih hps
    simp only [groupRuns]
    match hg : groupRuns ps with
    | [] => exact List.pairwise_singleton _ _
    | (k0, ns) :: rest =>
      rw [hg] at ihp
      dsimp only
      by_cases h : p.kind = k0
      · rw [if_pos h]
        simpa using ihp
      · rw [if_neg h]
        simp only [List.map_cons, List.pairwise_cons] at ihp ⊢
        obtain ⟨hk0, hrest⟩ := ihp
        have hps_ne : ps ≠ [] := by
          intro he
          rw [he] at hg
          cases hg
        obtain ⟨q, ps2, rfl⟩ := List.exists_cons_of_ne_nil hps_ne
        obtain ⟨ns2, rest2, hq⟩ := groupRuns_head q ps2
        rw [hq] at hg
        have hk0q : k0 = q.kind := by
          injection hg with h1 _
          injection h1 with h1 _
          exact h1.symm
        have hpq : kindRank p.kind ≤ kindRank k0 := by
          rw [hk0q]
          exact hall q (List.mem_cons_self q ps2)
        have hplt : kindRank p.kind < kindRank k0 := by
          rcases Nat.lt_or_ge (kindRank p.kind) (kindRank k0) with hlt | hge
          · exact hlt
          · exact absurd (kindRank_inj _ _ (by omega)) h
        constructor
        · intro b hb
          rcases List.mem_cons.mp hb with hb1 | hb2
          · subst hb1; exact hplt
          · exact Nat.lt_trans hplt (hk0 b hb2)
        · exact ⟨hk0, hrest⟩

theorem runsLookup_cons_of_ne (k k0 : ParamKind) (ns : List String)
    (rest : List (ParamKind × List String)) (hne : k0 ≠ k) :
    runsLookup k ((k0, ns) :: rest) = runsLookup k rest := by
  simp only [runsLookup]
  match runsLookup k rest with
  | some v => rfl
  | none => rw [if_neg hne]

theorem runsLookup_cons_of_none (k k0 : ParamKind) (ns : List String)
    (rest : List (ParamKind × List String)) (hnone : runsLookup k rest = none) :
    runsLookup k ((k0, ns) :: rest) = if k0 = k then some ns else none := by
  simp only [runsLookup, hnone]

theorem kindNames_cons (k : ParamKind) (p : PyParam) (ps : List PyParam) :
    kindNames k (p :: ps) =
      if p.kind == k then p.name :: kindNames k ps else kindNames k ps := by
  simp only [kindNames, List.filter_cons]
  by_cases hb : p.kind == k
  · simp [hb]
  · simp [hb]

/-- For an ordered signature, the groupby dictionary maps each kind to all
the names of that kind, in order. -/
theorem runsLookupD_eq_kindNames :
    ∀ ps, KindsOrdered ps → ∀ k,
      (runsLookup k (groupRuns ps)).getD [] = kindNames k ps := by
  intro ps
  induction ps with
  | nil => intro _ k; rfl
  | cons p ps ih =>
    intro hord k
    have hkinds := groupRuns_kinds_lt (p :: ps) hord
    rw [KindsOrdered, List.pairwise_cons] at hord
    obtain ⟨hall, hps⟩ := hord
    have ihk := ih hps
    simp only [groupRuns] at hkinds ⊢
    match hg : groupRuns ps with
    | [] =>
      have hps_nil : ps = [] := by
        cases hps2 : ps with
        | nil => rfl
        | cons q ps2 =>
          rw [hps2] at hg
          exact absurd hg (groupRuns_ne_nil q ps2)
      subst hps_nil
      dsimp only
      by_cases h : p.kind = k
      · simp [runsLookup, kindNames_cons, kindNames, h]
      · simp [runsLookup, kindNames_cons, kindNames, h]
    | (k0, ns) :: rest =>
      rw [hg] at ihk hkinds
      dsimp only at hkinds ⊢
      by_cases h : p.kind = k0
      · rw [if_pos h] at hkinds ⊢
        simp only [List.map_cons, List.pairwise_cons] at hkinds
        obtain ⟨hk0rest, _⟩ := hkinds
        by_cases hk : k0 = k
        · have hnone : runsLookup k rest = none := by
            apply runsLookup_none
            intro r hr he
            have hlt := hk0rest r.1 (List.mem_map_of_mem Prod.fst hr)
            rw [he, ← hk] at hlt
            omega
          have hold := ihk k
          rw [runsLookup_cons_of_none k k0 ns rest hnone, if_pos hk] at hold
          rw [runsLookup_cons_of_none k k0 (p.name :: ns) rest hnone, if_pos hk]
          simp only [Option.getD_some] at hold ⊢
          rw [kindNames_cons, if_pos (by simp [h, hk] : (p.kind == k) = true), ← hold]
        · have hold := ihk k
          rw [runsLookup_cons_of_ne k k0 ns rest hk] at hold
          rw [runsLookup_cons_of_ne k k0 (p.name :: ns) rest hk]
          rw [hold, kindNames_cons,
            if_neg (by simp [h] ; exact fun he => hk (h ▸ he) : ¬ (p.kind == k) = true)]
      · rw [if_neg h] at hkinds ⊢
        simp only [List.map_cons, List.pairwise_cons] at hkinds
        obtain ⟨hphead, _⟩ := hkinds
        by_cases hk : p.kind = k
        · have hnone2 : runsLookup k ((k0, ns) :: rest) = none := by
            apply runsLookup_none
            intro r hr he
            have hm : r.1 ∈ k0 :: rest.map Prod.fst := by
              rcases List.mem_cons.mp hr with hr1 | hr2
              · rw [hr1]; exact List.mem_cons_self _ _
              · exact List.mem_cons_of_mem _ (List.mem_map_of_mem Prod.fst hr2)
            have hlt := hphead r.1 hm
            rw [he, ← hk] at hlt
            omega
          have hold := ihk k
          rw [hnone2] at hold
          simp only [Option.getD_none] at hold
          rw [runsLookup_cons_of_none k p.kind [p.name] _ hnone2, if_pos hk]
          simp only [Option.getD_some]
          rw [kindNames_cons, if_pos (by simp [hk] : (p.kind == k) = true), ← hold]
        · have hold := ihk k
          rw [runsLookup_cons_of_ne k p.kind [p.name] _ hk]
          rw [hold, kindNames_cons,
            if_neg (by simp ; exact hk : ¬ (p.kind == k) = true)]

/-- On a canonically ordered signature the source computation agrees with
the spec's description of the expansion policy. -/
theorem get_expanded_eq_spec (params : List PyParam) (inputs state : List String)
    (h : KindsOrdered params) :
    get_expanded_arguments params inputs state =
      expansion_policy_spec params inputs state := by
  simp only [get_expanded_arguments, expansion_policy_spec,
    runsLookup_isSome, runsLookupD_eq_kindNames params h]

theorem lookup_map_setKey (k k' : String) (v : ArgVal) (hne : k' ≠ k) :
    ∀ m : List (String × ArgVal),
      List.lookup k' (m.map (fun p => if p.1 = k then (k, v) else p)) =
        List.lookup k' m := by
  intro m
  induction m with
  | nil => rfl
  | cons a rest ih =>
    simp only [List.map_cons]
    by_cases ha : a.1 = k
    · rw [if_pos ha]
      simp only [List.lookup]
      have h1 : (k' == k) = false := by simp [hne]
      have h2 : (k' == a.1) = false := by simp [ha ▸ hne]
      rw [h1]
      conv_rhs =>
        rw [show a = (a.1, a.2) from rfl]
      simp only [List.lookup, h2]
      exact ih
    · rw [if_neg ha]
      conv_rhs => rw [show a = (a.1, a.2) from rfl]
      conv_lhs => rw [show a = (a.1, a.2) from rfl]
      simp only [List.lookup]
      by_cases hk : k' == a.1
      · rw [hk]
      · simp only [hk]
        exact ih

theorem lookup_append_single (k k' : String) (v : ArgVal) (hne : k' ≠ k) :
    ∀ m : List (String × ArgVal),
      List.lookup k' (m ++ [(k, v)]) = List.lookup k' m := by
  intro m
  induction m with
  | nil =>
    simp only [List.nil_append, List.lookup]
    have h1 : (k' == k) = false := by simp [hne]
    rw [h1]
  | cons a rest ih =>
    conv_rhs => rw [show a = (a.1, a.2) from rfl]
    rw [List.cons_append]
    conv_lhs => rw [show a = (a.1, a.2) from rfl]
    simp only [List.lookup]
    by_cases hk : k' == a.1
    · rw [hk]
    · simp only [hk]
      exact ih

theorem lookup_setKey_ne (m : List (String × ArgVal)) (k k' : String)
    (v : ArgVal) (hne : k' ≠ k) :
    List.lookup k' (setKey m k v) = List.lookup k' m := by
  rw [setKey]
  by_cases h : (List.lookup k m).isSome
  · rw [if_pos h]
    exact lookup_map_setKey k k' v hne m
  · rw [if_neg h]
    exact lookup_append_single k k' v hne m

theorem getDashApp_argMapWithCtx (body : DispatchBody)
    (m : List (String × ArgVal)) :
    getDashApp (argMapWithCtx body m) = getDashApp m := by
  rw [argMapWithCtx]
  by_cases h : m.length > 0
  · rw [if_pos h, getDashApp, getDashApp,
      lookup_setKey_ne m "callback_context" "dash_app" _ (by decide)]
  · rw [if_neg h]

theorem lookup_selectKwargs (expanded : List String)
    (m : List (String × ArgVal)) (k : String) :
    List.lookup k (selectKwargs expanded m) =
      if expanded.contains k || k == "outputs_list" then List.lookup k m
      else none := by
  induction m with
  | nil => simp [selectKwargs]
  | cons a rest ih =>
    conv_rhs => rw [show a = (a.1, a.2) from rfl]
    simp only [selectKwargs, List.filter_cons] at ih ⊢
    by_cases hp : (expanded.contains a.1 || a.1 == "outputs_list") = true
    · rw [if_pos hp]
      conv_lhs => rw [show a = (a.1, a.2) from rfl]
      simp only [List.lookup]
      by_cases hk : k == a.1
      · have hkk : k = a.1 := by simpa using hk
        subst hkk
        rw [hk]
        simp only [if_pos hp]
      · simp only [hk]
        exact ih
    · rw [if_neg hp]
      simp only [List.lookup]
      by_cases hk : k == a.1
      · have hkk : k = a.1 := by simpa using hk
        subst hkk
        rw [ih, if_neg hp, if_neg hp]
      · simp only [hk]
        rw [ih]

theorem compNodeInduction (P : CompNode → Prop)
    (h : ∀ i cs, (∀ c ∈ cs, P c) → P (.mk i cs)) : ∀ c, P c := fun c =>
  match c with
  | .mk i cs => h i cs (fun c hc =>
      have : sizeOf c < 1 + sizeOf i + sizeOf cs := by
        have hs := List.sizeOf_lt_of_mem hc
        omega
      compNodeInduction P h c)
termination_by c => sizeOf c

theorem compIds_fixChildren (adjust : Bool) (uid : String) :
    ∀ cs : List CompNode,
      (∀ c ∈ cs, compIds (fix_component_id adjust uid c) =
        (compIds c).map (fix_id adjust uid)) →
      compIdsList (fixChildren adjust uid cs) =
        (compIdsList cs).map (fix_id adjust uid) := by
  intro cs
  induction cs with
  | nil => intro _; rfl
  | cons c rest ih =>
    intro h
    simp only [fixChildren, compIdsList, List.map_append]
    rw [h c (List.mem_cons_self c rest),
      ih (fun y hy => h y (List.mem_cons_of_mem c hy))]

/-- `_fix_component_id` rewrites every id in the tree with `_fix_id`. -/
theorem compIds_fix_component_id (adjust : Bool) (uid : String) :
    ∀ c, compIds (fix_component_id adjust uid c) =
      (compIds c).map (fix_id adjust uid) := by
  intro c
  induction c using compNodeInduction with
  | h i cs ih =>
    simp only [fix_component_id, compIds, List.map_append]
    rw [compIds_fixChildren adjust uid cs ih]
    match i with
    | some s => rfl
    | none => rfl

/-! ### Claim C4 — canonical identifier form -/
/-- C4: canonicalization returns a plain string unchanged; a pattern
identifier canonicalizes to `{` + the comma-joined `JSON(key):JSON(value)`
pairs with keys ascending + `}` (for ascending inputs the sort is the
identity); and the mapping (type: "btn", index: 3) canonicalizes to the
string with the keys in ascending order. -/
theorem c4_wid2str_canonical :
    (∀ s, wid2str (.str s) = s) ∧
    (∀ kvs : List (String × JVal), kvs.Pairwise KeyLt →
      wid2str (.pat kvs) =
        "\x7b" ++ String.intercalate ","
          (kvs.map (fun kv => dumps (.str kv.1) ++ ":" ++ dumps kv.2))
          ++ "\x7d") ∧
    wid2str (.pat [("type", .str "btn"), ("index", .num 3)]) =
      "\x7b\"index\":3,\"type\":\"btn\"\x7d" := by
  refine ⟨fun s => rfl, ?_, by decide⟩
  intro kvs h
  simp only [wid2str]
  rw [sortItems_of_sorted kvs h]

theorem c4_wid2str_canonical_witness :
    ([("a", JVal.num 1), ("b", JVal.num 2)] :
      List (String × JVal)).Pairwise KeyLt ∧
    wid2str (.pat [("a", JVal.num 1), ("b", JVal.num 2)]) =
      "\x7b\"a\":1,\"b\":2\x7d" :=
  ⟨by decide,
   (c4_wid2str_canonical.2.1 [("a", JVal.num 1), ("b", JVal.num 2)]
     (by decide)).trans (by decide)⟩

/-! ### Claim C8 — canonicalization is idempotent and order-insensitive -/
/-- C8: canonicalizing a canonical string is the identity (a canonical form
is a plain string, and plain strings pass through unchanged), and
canonicalizing any permutation of a pattern's key insertion order (with the
pairwise-distinct keys of a dict) yields the same canonical string. -/
theorem c8_wid2str_idempotent_perm :
    (∀ x : WId, wid2str (.str (wid2str x)) = wid2str x) ∧
    (∀ kvs1 kvs2 : List (String × JVal), kvs1.Perm kvs2 →
      (kvs1.map Prod.fst).Nodup →
      wid2str (.pat kvs1) = wid2str (.pat kvs2)) := by
  constructor
  · intro x; rfl
  · intro kvs1 kvs2 hp hn
    simp only [wid2str]
    rw [sortItems_eq_of_perm kvs1 kvs2 hp hn]

theorem c8_wid2str_idempotent_perm_witness :
    (([("b", JVal.num 2), ("a", JVal.num 1)] : List (String × JVal)).Perm
      [("a", JVal.num 1), ("b", JVal.num 2)]) ∧
    (([("b", JVal.num 2), ("a", JVal.num 1)] :
      List (String × JVal)).map Prod.fst).Nodup ∧
    wid2str (.pat [("b", JVal.num 2), ("a", JVal.num 1)]) =
      wid2str (.pat [("a", JVal.num 1), ("b", JVal.num 2)]) :=
  ⟨List.Perm.swap _ _ _, by decide,
   c8_wid2str_idempotent_perm.2 _ _ (List.Perm.swap _ _ _) (by decide)⟩

/-! ### Claim C7 — empty replacement is the identity, no mutation -/
/-- C7: `replace(tree, empty overrides)` returns a structure deep-equal to
the input tree (on trees whose ids Python can hash — a list-valued id makes
the source raise `TypeError`).  The model is value-semantic and the source
builds a fresh dict/list at every composite node, so the input is never
mutated. -/
theorem c7_replace_empty_identity (v : JVal) (h : IdsOkB v = true) :
    walk_tree_and_replace [] v = v :=
  walk_empty_overrides v h

theorem c7_replace_empty_identity_witness :
    IdsOkB (.obj [("id", .str "x"), ("value", .num 1),
      ("children", .arr [.obj [("id", .str "y"), ("value", .num 2)]])]) =
      true ∧
    walk_tree_and_replace []
      (.obj [("id", .str "x"), ("value", .num 1),
        ("children", .arr [.obj [("id", .str "y"), ("value", .num 2)]])]) =
      .obj [("id", .str "x"), ("value", .num 1),
        ("children", .arr [.obj [("id", .str "y"), ("value", .num 2)]])] :=
  ⟨rfl, c7_replace_empty_identity _ rfl⟩

/-! ### Claim C2 — replacement semantics at a node -/
/-- C2 counterexample: with the override map x ↦ (value ↦ null), the claim
as stated substitutes the override value null verbatim, but the source's
`r = replacements.get(k, None); if r is None:` conflates a null override
value with an absent key and recurses into the original value instead, so
the node keeps its original value 1. -/
theorem c2_replace_counterexample :
    walk_tree_and_replace [("x", [("value", JVal.null)])]
        (.obj [("id", .str "x"), ("value", .num 1)]) =
      .obj [("id", .str "x"), ("value", .num 1)] ∧
    replaceSpec [("x", [("value", JVal.null)])]
        (.obj [("id", .str "x"), ("value", .num 1)]) =
      .obj [("id", .str "x"), ("value", JVal.null)] ∧
    walk_tree_and_replace [("x", [("value", JVal.null)])]
        (.obj [("id", .str "x"), ("value", .num 1)]) ≠
      replaceSpec [("x", [("value", JVal.null)])]
        (.obj [("id", .str "x"), ("value", .num 1)]) := by
  refine ⟨rfl, rfl, ?_⟩
  intro h
  rw [show walk_tree_and_replace [("x", [("value", JVal.null)])]
        (.obj [("id", .str "x"), ("value", .num 1)]) =
      .obj [("id", .str "x"), ("value", .num 1)] from rfl,
    show replaceSpec [("x", [("value", JVal.null)])]
        (.obj [("id", .str "x"), ("value", .num 1)]) =
      .obj [("id", .str "x"), ("value", JVal.null)] from rfl] at h
  simp at h

/-- C2 amended: on every tree whose ids Python can hash, the source walk
realizes the spec's per-node rule amended in one point — an override value
that is present but null is treated as if the property name were absent
(the original value is recursed into); everything else is as claimed:
pattern ids are canonicalized and matched by exact string equality against
the override keys, a non-null override value is substituted verbatim with
no recursion, unmatched properties are recursed, list nodes map
element-wise and scalars are unchanged (see `replaceAmended`). -/
theorem c2_replace_amended (ov : Overrides) (v : JVal) (h : IdsOkB v = true) :
    walk_tree_and_replace ov v = replaceAmended ov v :=
  walk_eq_replaceAmended ov v h

theorem c2_replace_amended_witness :
    IdsOkB (.obj [("id", .obj [("type", .str "filter"), ("index", .num 0)]),
      ("value", .num 1)]) = true ∧
    walk_tree_and_replace
        [("\x7b\"index\":0,\"type\":\"filter\"\x7d", [("value", JVal.num 99)])]
        (.obj [("id", .obj [("type", .str "filter"), ("index", .num 0)]),
          ("value", .num 1)]) =
      replaceAmended
        [("\x7b\"index\":0,\"type\":\"filter\"\x7d", [("value", JVal.num 99)])]
        (.obj [("id", .obj [("type", .str "filter"), ("index", .num 0)]),
          ("value", .num 1)]) :=
  ⟨rfl, c2_replace_amended _ _ rfl⟩

/-! ### Claim C3 — expansion policy at registration -/
/-- C3: on every canonically ordered signature the computed policy is:
inject all (`none`) with a keyword catch-all; else the keyword-only names
with a positional catch-all; else the positional-or-keyword names beyond
the first `|inputs| + |state|`, followed by the keyword-only names — and
the three concrete instances of the claim. -/
theorem c3_expansion_policy :
    (∀ params inputs state, KindsOrdered params →
      get_expanded_arguments params inputs state =
        expansion_policy_spec params inputs state) ∧
    get_expanded_arguments
      [⟨"a", .positionalOrKeyword⟩, ⟨"b", .positionalOrKeyword⟩,
       ⟨"c", .positionalOrKeyword⟩, ⟨"d", .positionalOrKeyword⟩]
      ["in1.value", "in2.value"] ["s1.value"] = some ["d"] ∧
    get_expanded_arguments
      [⟨"a", .positionalOrKeyword⟩, ⟨"b", .positionalOrKeyword⟩,
       ⟨"c", .positionalOrKeyword⟩, ⟨"d", .positionalOrKeyword⟩,
       ⟨"kwargs", .varKeyword⟩]
      ["in1.value", "in2.value"] ["s1.value"] = none ∧
    get_expanded_arguments
      [⟨"a", .positionalOrKeyword⟩, ⟨"b", .positionalOrKeyword⟩,
       ⟨"c", .positionalOrKeyword⟩, ⟨"args", .varPositional⟩,
       ⟨"x", .keywordOnly⟩]
      ["in1.value", "in2.value"] ["s1.value"] = some ["x"] :=
  ⟨fun params inputs state h => get_expanded_eq_spec params inputs state h,
   rfl, rfl, rfl⟩

theorem c3_expansion_policy_witness :
    KindsOrdered
      [⟨"a", .positionalOrKeyword⟩, ⟨"b", .positionalOrKeyword⟩,
       ⟨"c", .positionalOrKeyword⟩, ⟨"d", .positionalOrKeyword⟩] ∧
    get_expanded_arguments
      [⟨"a", .positionalOrKeyword⟩, ⟨"b", .positionalOrKeyword⟩,
       ⟨"c", .positionalOrKeyword⟩, ⟨"d", .positionalOrKeyword⟩]
      ["in1.value", "in2.value"] ["s1.value"] =
      expansion_policy_spec
        [⟨"a", .positionalOrKeyword⟩, ⟨"b", .positionalOrKeyword⟩,
         ⟨"c", .positionalOrKeyword⟩, ⟨"d", .positionalOrKeyword⟩]
        ["in1.value", "in2.value"] ["s1.value"] :=
  ⟨by decide, c3_expansion_policy.1 _ _ _ (by decide)⟩

/-! ### Claim C1 — insufficient arguments return the sentinel -/
/-- C1 amended: whenever the reconstructed positional argument list — one
argument per entry of the request's inputs and state lists — has fewer
entries than the registration's declared inputs, dispatch returns the
sentinel (`"EDGECASEEXIT"`, modelled by `DispatchRet.sentinel`) without
invoking the handler and without raising; in particular a request whose
inputs list is shorter than the declared inputs and whose state list is
empty yields the sentinel. -/
theorem c1_insufficient_args_sentinel (cm : List (String × CallbackInfo))
    (body : DispatchBody) (argMap : List (String × ArgVal))
    (ci : CallbackInfo) (hlook : List.lookup body.output cm = some ci)
    (hlen : body.inputs.length + body.state.length < ci.inputs.length) :
    (dispatch_with_args cm body argMap).result = .ok .sentinel ∧
    (dispatch_with_args cm body argMap).handlerCalls = 0 := by
  simp only [dispatch_with_args, hlook, reconstructArgs, List.length_map,
    List.length_append]
  rw [if_pos hlen]
  exact ⟨rfl, rfl⟩

theorem c1_insufficient_args_sentinel_witness :
    List.lookup c1body.output [("out.children", c1ci)] = some c1ci ∧
    c1body.inputs.length + c1body.state.length < c1ci.inputs.length ∧
    (dispatch_with_args [("out.children", c1ci)] c1body []).result =
      .ok .sentinel ∧
    (dispatch_with_args [("out.children", c1ci)] c1body []).handlerCalls = 0 :=
  ⟨rfl, by decide,
   (c1_insufficient_args_sentinel [("out.children", c1ci)] c1body [] c1ci rfl
     (by decide)).1,
   (c1_insufficient_args_sentinel [("out.children", c1ci)] c1body [] c1ci rfl
     (by decide)).2⟩

/-- C1 counterexample to the claim's "in particular" reading: the request's
inputs list (one entry) is shorter than the registration's two declared
inputs, yet the single state entry pads the reconstructed argument list to
length two, the insufficiency check `len(args) < len(inputs)` does not
fire, the handler runs once, and the result is its payload rather than the
sentinel. -/
theorem c1_insufficient_args_counterexample :
    c1xbody.inputs.length < c1xci.inputs.length ∧
    List.lookup c1xbody.output [("out.children", c1xci)] = some c1xci ∧
    (dispatch_with_args [("out.children", c1xci)] c1xbody []).handlerCalls =
      1 ∧
    (dispatch_with_args [("out.children", c1xci)] c1xbody []).result ≠
      .ok .sentinel := by
  refine ⟨by decide, rfl, rfl, ?_⟩
  intro h
  rw [show (dispatch_with_args [("out.children", c1xci)] c1xbody []).result =
      .ok (.payload (.obj [("echo", .arr [.num 5, .num 7])])) from rfl] at h
  exact DispatchRet.noConfusion (Except.ok.inj h)

/-! ### Claim C10 — backend writes happen before the sentinel check -/
/-- C10: with a state backend attached, every entry of the request's inputs
and state lists is written to the backend (in order) during argument
reconstruction, before the insufficiency check; a dispatch that returns
the sentinel has therefore already performed all those writes. -/
theorem c10_writes_precede_sentinel (cm : List (String × CallbackInfo))
    (body : DispatchBody) (argMap : List (String × ArgVal))
    (ci : CallbackInfo) (b : StateBackend)
    (hlook : List.lookup body.output cm = some ci)
    (hda : List.lookup "dash_app" argMap = some (.backend b))
    (hlen : body.inputs.length + body.state.length < ci.inputs.length) :
    (dispatch_with_args cm body argMap).result = .ok .sentinel ∧
    (dispatch_with_args cm body argMap).writes =
      ((body.inputs ++ body.state).map entryWrites).flatten := by
  have hda2 : getDashApp (argMapWithCtx body argMap) = some b := by
    rw [getDashApp_argMapWithCtx, getDashApp, hda]
  simp only [dispatch_with_args, hlook, hda2, reconstructArgs,
    List.length_map, List.length_append]
  rw [if_pos hlen]
  exact ⟨rfl, rfl⟩

theorem c10_writes_precede_sentinel_witness :
    List.lookup c10body.output [("out.children", c10ci)] = some c10ci ∧
    List.lookup "dash_app" [("dash_app", ArgVal.backend c10b)] =
      some (.backend c10b) ∧
    c10body.inputs.length + c10body.state.length < c10ci.inputs.length ∧
    (dispatch_with_args [("out.children", c10ci)] c10body
      [("dash_app", ArgVal.backend c10b)]).result = .ok .sentinel ∧
    (dispatch_with_args [("out.children", c10ci)] c10body
      [("dash_app", ArgVal.backend c10b)]).writes =
      [(WId.str "in1", "value", JVal.num 5),
       (WId.str "s1", "value", JVal.num 7)] :=
  ⟨rfl, rfl, by decide,
   (c10_writes_precede_sentinel [("out.children", c10ci)] c10body
     [("dash_app", ArgVal.backend c10b)] c10ci c10b rfl rfl (by decide)).1,
   ((c10_writes_precede_sentinel [("out.children", c10ci)] c10body
     [("dash_app", ArgVal.backend c10b)] c10ci c10b rfl rfl (by decide)).2).trans
     rfl⟩

/-- C6 counterexample: the handler here returns the names of the keyword
arguments it receives.  With the empty expansion policy the claim says
every context-map entry is withheld, yet the handler observes the
`outputs_list` entry (which the dispatcher itself stores into the context
map and always injects via `parameters_to_inject = (*expanded,
"outputs_list")`). -/
theorem c6_kwargs_counterexample :
    c6ci.expanded = some [] ∧
    (([] : List String).contains "outputs_list") = false ∧
    (dispatch_with_args [("out.children", c6ci)] c6body
      [("extra", ArgVal.jval (.num 1))]).result =
      .ok (.payload (.arr [.str "outputs_list"])) :=
  ⟨rfl, rfl, rfl⟩

/-- C6 amended: whenever a handler with a finite expansion policy is
dispatched (with or without a state backend attached), it is invoked once
with exactly the entries of the augmented context map selected by the
policy plus the always-injected `outputs_list` entry — the whole outcome
factors through `dispatch_finish` applied to that one invocation — and
every other context-map entry is withheld from its keyword arguments. -/
theorem c6_kwargs_policy (cm : List (String × CallbackInfo))
    (body : DispatchBody) (argMap : List (String × ArgVal))
    (ci : CallbackInfo) (l : List String)
    (hlook : List.lookup body.output cm = some ci)
    (hexp : ci.expanded = some l)
    (hlen : ci.inputs.length ≤ body.inputs.length + body.state.length) :
    dispatch_with_args cm body argMap =
      dispatch_finish (getDashApp (argMapWithCtx body argMap))
        (splitOutputs body.output)
        (reconstructArgs (getDashApp (argMapWithCtx body argMap))
          (body.inputs ++ body.state)).2
        (ci.callback ((body.inputs ++ body.state).map entryValue)
          (selectKwargs l (argMapFull body argMap))) ∧
    (∀ k, List.lookup k (selectKwargs l (argMapFull body argMap)) =
      if l.contains k || k == "outputs_list" then
        List.lookup k (argMapFull body argMap)
      else none) := by
  constructor
  · simp only [dispatch_with_args, hlook, hexp, reconstructArgs,
      List.length_map, List.length_append]
    rw [if_neg (by omega)]
  · intro k
    exact lookup_selectKwargs l (argMapFull body argMap) k

theorem c6_kwargs_policy_witness :
    List.lookup c6body.output [("out.children", c6wci)] = some c6wci ∧
    c6wci.expanded = some ["d"] ∧
    c6wci.inputs.length ≤ c6body.inputs.length + c6body.state.length ∧
    (dispatch_with_args [("out.children", c6wci)] c6body c6wam =
      dispatch_finish (getDashApp (argMapWithCtx c6body c6wam))
        (splitOutputs c6body.output)
        (reconstructArgs (getDashApp (argMapWithCtx c6body c6wam))
          (c6body.inputs ++ c6body.state)).2
        (c6wci.callback ((c6body.inputs ++ c6body.state).map entryValue)
          (selectKwargs ["d"] (argMapFull c6body c6wam))) ∧
    (∀ k, List.lookup k (selectKwargs ["d"] (argMapFull c6body c6wam)) =
      if ["d"].contains k || k == "outputs_list" then
        List.lookup k (argMapFull c6body c6wam)
      else none)) :=
  ⟨rfl, rfl, by decide,
   c6_kwargs_policy [("out.children", c6wci)] c6body c6wam c6wci ["d"]
     rfl rfl (by decide)⟩

/-- C5 failing input: a registration whose output target is the canonical
string form of a pattern identifier, dispatched with a state backend
attached whose `have_current_state_entry` is everywhere false.  The output
items handed to the persistence loop are always strings (see
`splitOutputs`), so the `isinstance(output_item, str)` guard is always true
and the `raise NotImplementedError` branch for pattern-shaped outputs is
unreachable: the canonical pattern string takes the plain path, is split at
its dot, fails the `have_current_state_entry` test, and the state update is
silently dropped — the dispatch returns the handler's payload, performs
only the input-reconstruction write, and raises nothing. -/
theorem c5_pattern_output_silent_drop :
    dispatch_with_args [(c5out, c5ci)] c5body
      [("dash_app", ArgVal.backend c5b)] =
    ⟨.ok (.payload c5resp), 1, [(WId.str "in1", "value", JVal.num 5)]⟩ := rfl

/-! ### Claim C9 — namespacing rewrites tree ids and registrations alike -/
/-- C9: with namespacing enabled, `"slider"` under instance `"inst1"`
rewrites to `"inst1_-_slider"`; with it disabled the rewrite is the
identity; `_fix_component_id` applies exactly that rewrite to every id in
the tree; `WrappedDash.callback` applies the identical rewrite to the
component id of every output, input and state item; and a tree node whose
id equals a callback item's component id rewrites to exactly the rewritten
component id, so a dispatch-time lookup still resolves. -/
theorem c9_namespace_rewrite :
    fix_id true "inst1" "slider" = "inst1_-_slider" ∧
    (∀ uid name, fix_id false uid name = name) ∧
    (∀ adjust uid c, compIds (fix_component_id adjust uid c) =
      (compIds c).map (fix_id adjust uid)) ∧
    (∀ adjust uid output inputs state,
      wrapped_callback_args adjust uid output inputs state =
        (fixOutputs adjust uid output,
         inputs.map (fix_callback_item adjust uid),
         state.map (fix_callback_item adjust uid))) ∧
    (∀ adjust uid (item : DepItem) (children : List CompNode),
      compIds (fix_component_id adjust uid
        (.mk (some item.component_id) children)) =
        (fix_callback_item adjust uid item).component_id ::
          (compIdsList children).map (fix_id adjust uid)) := by
  refine ⟨rfl, fun _ _ => rfl, compIds_fix_component_id, fun _ _ _ _ _ => rfl, ?_⟩
  intro adjust uid item children
  rw [compIds_fix_component_id]
  rfl
